import Mathlib

/-!
Verification of the context-enrichment transform from
`notebooks/7-ExpandedContent-Week3.ipynb`: grouping a chunked dataset into
contiguous episode runs (`groupby_episode`), windowed content expansion
(`create_expanded_content`), the length sanity check of the notebook (the
"azimuth check" cell), and the field join that writes the
`expanded_content` key back onto the records.

Records are Python dicts with string keys; we model them as ordered
association lists of string pairs (insertion-ordered, no duplicate keys in
practice), which is exactly the observable behaviour the notebook relies
on. Missing-key access (`KeyError`) and the `ValueError`,
`AssertionError` and `NameError` outcomes are modelled with an explicit
error type. `window_size`, while a Python `int`, is quantified over the
non-negative integers as in the spec, so it is a `Nat` here; note that for
`i, w : Nat` the Python `max(0, i - w)` is literally truncated subtraction
`i - w`.
-/

/-- Error outcomes the cells of the notebook can produce. -/
inductive PyError where
  | ValueError (msg : String)
  | AssertionError (msg : String)
  | KeyError (key : String)
  | NameError (name : String)
deriving DecidableEq, Repr

/-- A Python dict with string keys and string values, as an
insertion-ordered association list (the records of the notebook). -/
abbrev Record := List (String × String)

/-- Dict lookup `r[k]`: the value at the first matching key, if any. -/
def dictGet : Record → String → Option String
  | [], _ => none
  | (k', v) :: rest, k => if k' = k then some v else dictGet rest k

/-- Dict update `r[k] = v`: overwrite in place when the key is present
(keeping its position, as Python dicts do), otherwise append at the end. -/
def dictSet : Record → String → String → Record
  | [], k, v => [(k, v)]
  | (k', v') :: rest, k, v =>
      if k' = k then (k, v) :: rest else (k', v') :: dictSet rest k v

/-- Lookup of a Python local variable by name in an environment. -/
def lookupName {γ : Type} : List (String × γ) → String → Option γ
  | [], _ => none
  | (k, v) :: rest, n => if k = n then some v else lookupName rest n

/-- Semantics of `itertools.groupby(data, key)` followed by listing each
group: the maximal contiguous runs of elements with equal keys, in input
order. -/
def groupRuns {α β : Type} [DecidableEq β] (key : α → β) : List α → List (List α)
  | [] => []
  | x :: xs =>
    match groupRuns key xs with
    | [] => [[x]]
    | g :: gs =>
      if key x = key (g.headD x) then (x :: g) :: gs else [x] :: g :: gs

/-- `groupby_episode` from the notebook: separates the corpus into
contiguous runs sharing the `key_field` value. Key access is totalized to
`Option String`; every claim concerns records that carry the key. -/
def groupby_episode (data : List Record) (key_field : String) : List (List Record) :=
  groupRuns (fun x => dictGet x key_field) data

/-- Python slice `l[start:stop]` for non-negative bounds. -/
def pySlice {α : Type} (l : List α) (start stop : Nat) : List α :=
  (l.drop start).take (stop - start)

/-- The expansion loop body of `create_expanded_content`: for each position
`i` of an episode, `start = max(0, i - window_size)` (truncated
subtraction), `end = i + window_size + 1`, and the expanded content is the
space-join of `episode[start:end]`. -/
def expandEpisode (window_size : Nat) (episode : List String) : List String :=
  (List.range episode.length).map fun i =>
    String.intercalate " " (pySlice episode (i - window_size) (i + window_size + 1))

/-- The list comprehension `[d["content"] for d in alist]`: first missing
`content` key raises `KeyError`. -/
def extractEpisode : List Record → Except PyError (List String)
  | [] => .ok []
  | d :: rest =>
    match dictGet d "content" with
    | none => .error (.KeyError "content")
    | some c =>
      match extractEpisode rest with
      | .error e => .error e
      | .ok cs => .ok (c :: cs)

/-- The nested comprehension `[[d["content"] for d in alist] for alist in episodes]`. -/
def extractContents : List (List Record) → Except PyError (List (List String))
  | [] => .ok []
  | ep :: rest =>
    match extractEpisode ep with
    | .error e => .error e
    | .ok cs =>
      match extractContents rest with
      | .error e => .error e
      | .ok css => .ok (cs :: css)

/-- Python falsiness of an optional-list argument: `not x` is true for
`None` and for an empty list. -/
def pyFalsy {α : Type} : Option (List α) → Bool
  | none => true
  | some l => l.isEmpty

/-- Message of the `ValueError` raised by `create_expanded_content`. -/
def invalidArgMsg : String := "Either data or a chunk_list must be passed as an arg"

/-- Message of the episode-count `assert` in `create_expanded_content`
(the notebook interpolates the two counts; the text is abbreviated here). -/
def assertMsg : String := "Number of grouped episodes does not equal num_episodes"

/-- The `if data:` branch of `create_expanded_content`: group, assert the
episode count, extract `content` fields. Split out for reuse in proofs. -/
def extractContentsOfData (l : List Record) (num_episodes : Nat) (key_field : String) :
    Except PyError (List (List String)) :=
  if (groupby_episode l key_field).length = num_episodes then
    extractContents (groupby_episode l key_field)
  else
    .error (.AssertionError assertMsg)

/-- `create_expanded_content` from the notebook. Control flow follows the
source: raise `ValueError` when `data` and `chunk_list` are both falsy;
when `data` is truthy, group it, assert the group count equals
`num_episodes`, extract the `content` fields and expand those; otherwise
expand the supplied `chunk_list`. -/
def create_expanded_content (data : Option (List Record))
    (chunk_list : Option (List (List String)))
    (window_size : Nat) (num_episodes : Nat) (key_field : String) :
    Except PyError (List (List String)) :=
  if pyFalsy data && pyFalsy chunk_list then
    .error (.ValueError invalidArgMsg)
  else if pyFalsy data then
    .ok ((chunk_list.getD []).map (expandEpisode window_size))
  else
    match extractContentsOfData (data.getD []) num_episodes key_field with
    | .error e => .error e
    | .ok cl => .ok (cl.map (expandEpisode window_size))

/-- Message of the azimuth-check `assert`. -/
def mismatchMsg : String :=
  "Mismatch in lengths. Double check how you flattened your expanded_content"

/-- The azimuth-check cell of the notebook, embedded faithfully including its
misspelt binding: the cell binds `flat_length` and `data_legnth` (note the
transposed letters) and then asserts `flat_length == data_length`, reading
a name that was never bound. -/
def azimuth_check (flattened_content : List String) (data : List Record) :
    Except PyError Unit :=
  match lookupName
      [("flat_length", flattened_content.length),
       ("data_legnth", data.length)] "data_length" with
  | none => .error (.NameError "data_length")
  | some data_length =>
    if flattened_content.length = data_length then .ok ()
    else .error (.AssertionError mismatchMsg)

/-- Modelled from the spec: the body of `join_expanded_content` is left
blank in the notebook (an assignment fill-in between the START/END
markers); per spec section 4.3 each output record is the corresponding
input record with the `expanded_content` key set to the aligned flattened
string, in original order. -/
def join_expanded_content (data : List Record) (flattened_content : List String) :
    List Record :=
  data.zipWith (fun d c => dictSet d "expanded_content" c) flattened_content

/-- Two groups have pointwise different `key_field` values. -/
abbrev keysDiffer (key_field : String) (g h : List Record) : Prop :=
  ∀ a ∈ g, ∀ b ∈ h, dictGet a key_field ≠ dictGet b key_field

theorem groupRuns_cons_nil {α β : Type} [DecidableEq β] (key : α → β) {xs : List α}
    (x : α) (h : groupRuns key xs = []) : groupRuns key (x :: xs) = [[x]] := by
  rw [groupRuns, h]

theorem groupRuns_cons_cons {α β : Type} [DecidableEq β] (key : α → β) {xs : List α}
    {g : List α} {gs : List (List α)} (x : α) (h : groupRuns key xs = g :: gs) :
    groupRuns key (x :: xs) =
      if key x = key (g.headD x) then (x :: g) :: gs else [x] :: g :: gs := by
  rw [groupRuns, h]

theorem groupRuns_flatten {α β : Type} [DecidableEq β] (key : α → β) :
    ∀ l : List α, (groupRuns key l).flatten = l := by
  intro l
  induction l with
  | nil => rfl
  | cons x xs ih =>
    rcases h : groupRuns key xs with _ | ⟨g, gs⟩
    · rw [h] at ih
      simp only [List.flatten_nil] at ih
      rw [groupRuns_cons_nil key x h]
      simp [ih.symm]
    · rw [h] at ih
      rw [groupRuns_cons_cons key x h]
      by_cases hk : key x = key (g.headD x)
      · rw [if_pos hk]
        simp only [List.flatten_cons, List.cons_append] at ih ⊢
        rw [ih]
      · rw [if_neg hk]
        simp only [List.flatten_cons, List.singleton_append] at ih ⊢
        rw [ih]

theorem groupRuns_ne_nil {α β : Type} [DecidableEq β] (key : α → β) :
    ∀ l : List α, ∀ g ∈ groupRuns key l, g ≠ [] := by
  intro l
  induction l with
  | nil => intro g hg; simp [groupRuns] at hg
  | cons x xs ih =>
    intro g hg
    rcases h : groupRuns key xs with _ | ⟨g', gs⟩
    · rw [groupRuns_cons_nil key x h] at hg
      simp only [List.mem_singleton] at hg
      subst hg; simp
    · rw [groupRuns_cons_cons key x h] at hg
      by_cases hk : key x = key (g'.headD x)
      · rw [if_pos hk] at hg
        rcases List.mem_cons.mp hg with rfl | hgs
        · simp
        · exact ih g (by rw [h]; exact List.mem_cons_of_mem _ hgs)
      · rw [if_neg hk] at hg
        rcases List.mem_cons.mp hg with rfl | hg'
        · simp
        · exact ih g (by rw [h]; exact hg')

theorem groupRuns_cons_shape {α β : Type} [DecidableEq β] (key : α → β) (x : α)
    (xs : List α) : ∃ t gs, groupRuns key (x :: xs) = (x :: t) :: gs := by
  rcases h : groupRuns key xs with _ | ⟨g, gs⟩
  · exact ⟨[], [], groupRuns_cons_nil key x h⟩
  · by_cases hk : key x = key (g.headD x)
    · exact ⟨g, gs, by rw [groupRuns_cons_cons key x h, if_pos hk]⟩
    · exact ⟨[], g :: gs, by rw [groupRuns_cons_cons key x h, if_neg hk]⟩

theorem groupRuns_const {α β : Type} [DecidableEq β] (key : α → β) :
    ∀ l : List α, ∀ g ∈ groupRuns key l, ∀ a ∈ g, ∀ b ∈ g, key a = key b := by
  intro l
  induction l with
  | nil => intro g hg; simp [groupRuns] at hg
  | cons x xs ih =>
    intro g hg a ha b hb
    rcases h : groupRuns key xs with _ | ⟨g', gs⟩
    · rw [groupRuns_cons_nil key x h] at hg
      simp only [List.mem_singleton] at hg
      subst hg
      simp only [List.mem_singleton] at ha hb
      rw [ha, hb]
    · have hne : g' ≠ [] := groupRuns_ne_nil key xs g' (by rw [h]; exact List.mem_cons_self _ _)
      rcases g' with _ | ⟨y, t⟩
      · exact absurd rfl hne
      rw [groupRuns_cons_cons key x h] at hg
      by_cases hk : key x = key ((y :: t).headD x)
      · rw [if_pos hk] at hg
        simp only [List.headD_cons] at hk
        rcases List.mem_cons.mp hg with rfl | hgs
        · have hall : ∀ c ∈ x :: y :: t, key c = key y := by
            intro c hc
            rcases List.mem_cons.mp hc with rfl | hc'
            · exact hk
            · exact ih (y :: t) (by rw [h]; exact List.mem_cons_self _ _) c hc' y
                (List.mem_cons_self _ _)
          rw [hall a ha, hall b hb]
        · exact ih g (by rw [h]; exact List.mem_cons_of_mem _ hgs) a ha b hb
      · rw [if_neg hk] at hg
        rcases List.mem_cons.mp hg with rfl | hg'
        · simp only [List.mem_singleton] at ha hb
          rw [ha, hb]
        · exact ih g (by rw [h]; exact hg') a ha b hb

theorem groupRuns_adjacent {α β : Type} [DecidableEq β] (key : α → β) :
    ∀ l : List α,
      List.Chain' (fun g h => ∀ a ∈ g, ∀ b ∈ h, key a ≠ key b) (groupRuns key l) := by
  intro l
  induction l with
  | nil => simp [groupRuns]
  | cons x xs ih =>
    rcases h : groupRuns key xs with _ | ⟨g', gs⟩
    · rw [groupRuns_cons_nil key x h]
      simp
    · rw [h] at ih
      have hne : g' ≠ [] := groupRuns_ne_nil key xs g' (by rw [h]; exact List.mem_cons_self _ _)
      rcases g' with _ | ⟨y, t⟩
      · exact absurd rfl hne
      rw [groupRuns_cons_cons key x h]
      by_cases hk : key x = key ((y :: t).headD x)
      · rw [if_pos hk]
        simp only [List.headD_cons] at hk
        rcases List.chain'_cons'.mp ih with ⟨hrel, hchain⟩
        refine List.chain'_cons'.mpr ⟨?_, hchain⟩
        intro hd hhd a ha b hb
        have hay : key a = key y := by
          rcases List.mem_cons.mp ha with rfl | ha'
          · exact hk
          · exact groupRuns_const key xs (y :: t)
              (by rw [h]; exact List.mem_cons_self _ _) a ha' y (List.mem_cons_self _ _)
        rw [hay]
        exact hrel hd hhd y (List.mem_cons_self _ _) b hb
      · rw [if_neg hk]
        simp only [List.headD_cons] at hk
        refine List.chain'_cons.mpr ⟨?_, ih⟩
        intro a ha b hb
        simp only [List.mem_singleton] at ha
        subst ha
        have hby : key b = key y := groupRuns_const key xs (y :: t)
          (by rw [h]; exact List.mem_cons_self _ _) b hb y (List.mem_cons_self _ _)
        rw [hby]
        exact hk

theorem groupRuns_run_append {α β : Type} [DecidableEq β] (key : α → β) :
    ∀ (t : List α) (x : α) (rest : List α),
      (∀ a ∈ t, key a = key x) →
      (∀ y, rest.head? = some y → key y ≠ key x) →
      groupRuns key (x :: (t ++ rest)) = (x :: t) :: groupRuns key rest := by
  intro t
  induction t with
  | nil =>
    intro x rest hconst hhead
    rcases h : groupRuns key rest with _ | ⟨g, gs⟩
    · have hrest : rest = [] := by
        have := groupRuns_flatten key rest
        rw [h] at this
        simpa using this.symm
      subst hrest
      simpa using groupRuns_cons_nil key x h
    · have hne : g ≠ [] := groupRuns_ne_nil key rest g (by rw [h]; exact List.mem_cons_self _ _)
      rcases g with _ | ⟨y, t'⟩
      · exact absurd rfl hne
      have hy : rest.head? = some y := by
        have := groupRuns_flatten key rest
        rw [h] at this
        rw [← this]
        simp
      simp only [List.nil_append]
      rw [groupRuns_cons_cons key x h]
      rw [if_neg]
      simp only [List.headD_cons]
      intro hxy
      exact hhead y hy hxy.symm
  | cons a t' ih =>
    intro x rest hconst hhead
    have hax : key a = key x := hconst a (List.mem_cons_self _ _)
    have ih' := ih a rest
      (fun z hz => (hconst z (List.mem_cons_of_mem _ hz)).trans hax.symm)
      (fun y hy hk => hhead y hy (hk.trans hax))
    have hgoal : groupRuns key (x :: (a :: (t' ++ rest))) = (x :: a :: t') :: groupRuns key rest := by
      rw [groupRuns_cons_cons key x ih']
      rw [if_pos (by simpa using hax.symm)]
    simpa using hgoal

theorem groupRuns_flatten_eq {α β : Type} [DecidableEq β] (key : α → β) :
    ∀ gs : List (List α),
      (∀ g ∈ gs, g ≠ []) →
      (∀ g ∈ gs, ∀ a ∈ g, ∀ b ∈ g, key a = key b) →
      List.Chain' (fun g h => ∀ a ∈ g, ∀ b ∈ h, key a ≠ key b) gs →
      groupRuns key gs.flatten = gs := by
  intro gs
  induction gs with
  | nil => intro _ _ _; rfl
  | cons g gs' ih =>
    intro hne hconst hchain
    rcases g with _ | ⟨x, t⟩
    · exact absurd rfl (hne [] (List.mem_cons_self _ _))
    have hflat : ((x :: t) :: gs').flatten = x :: (t ++ gs'.flatten) := by simp
    rw [hflat]
    rw [groupRuns_run_append key t x gs'.flatten
      (fun a ha => hconst (x :: t) (List.mem_cons_self _ _) a (List.mem_cons_of_mem _ ha) x
        (List.mem_cons_self _ _)) ?_]
    · rw [ih (fun g hgm => hne g (List.mem_cons_of_mem _ hgm))
        (fun g hgm => hconst g (List.mem_cons_of_mem _ hgm)) hchain.tail]
    · intro y hy hyx
      rcases gs' with _ | ⟨h', rest⟩
      · simp at hy
      have hne' : h' ≠ [] := hne h' (List.mem_cons_of_mem _ (List.mem_cons_self _ _))
      rcases h' with _ | ⟨z, zs⟩
      · exact absurd rfl hne'
      have hyz : y = z := by
        simp only [List.flatten_cons, List.cons_append, List.head?_cons] at hy
        exact (Option.some.inj hy).symm ▸ rfl
      subst hyz
      have hrel := List.chain'_cons.mp hchain
      exact hrel.1 x (List.mem_cons_self _ _) y (List.mem_cons_self _ _) hyx.symm

theorem length_expandEpisode (w : Nat) (ep : List String) :
    (expandEpisode w ep).length = ep.length := by
  simp [expandEpisode]

theorem expandEpisode_getElem? (w : Nat) (ep : List String) (i : Nat)
    (h : i < ep.length) :
    (expandEpisode w ep)[i]? =
      some (String.intercalate " " (pySlice ep (i - w) (i + w + 1))) := by
  simp [expandEpisode, List.getElem?_map, List.getElem?_range, h]

theorem pySlice_take_drop (ep : List String) (w i : Nat) (h : i < ep.length) :
    pySlice ep (i - w) (i + w + 1) =
      (ep.take (min (ep.length - 1) (i + w) + 1)).drop (i - w) := by
  rw [pySlice, List.drop_take]
  by_cases hc : i + w + 1 ≤ ep.length
  · have hmin : min (ep.length - 1) (i + w) = i + w := by omega
    rw [hmin]
  · have hmin : min (ep.length - 1) (i + w) = ep.length - 1 := by omega
    rw [hmin]
    have hn : ep.length - 1 + 1 = ep.length := by omega
    rw [hn]
    have hlen : (ep.drop (i - w)).length = ep.length - (i - w) := List.length_drop _ _
    rw [List.take_of_length_le (by omega), List.take_of_length_le (by omega)]

theorem pySlice_split (l : List String) (s m e : Nat) (hsm : s ≤ m) (hme : m ≤ e) :
    pySlice l s e = pySlice l s m ++ pySlice l m e := by
  unfold pySlice
  have he : e - s = (m - s) + (e - m) := by omega
  rw [he, List.take_add, List.drop_drop]
  have hm : s + (m - s) = m := by omega
  rw [hm]

theorem pySlice_singleton (ep : List String) (i : Nat) (h : i < ep.length) :
    pySlice ep i (i + 1) = [ep[i]] := by
  unfold pySlice
  have h1 : i + 1 - i = 1 := by omega
  rw [h1, List.drop_eq_getElem_cons h]
  rfl

theorem pySlice_center (ep : List String) (w i : Nat) (h : i < ep.length) :
    pySlice ep (i - w) (i + w + 1) =
      pySlice ep (i - w) i ++ ep[i] :: pySlice ep (i + 1) (i + w + 1) := by
  rw [pySlice_split ep (i - w) i (i + w + 1) (by omega) (by omega)]
  rw [pySlice_split ep i (i + 1) (i + w + 1) (by omega) (by omega)]
  rw [pySlice_singleton ep i h]
  rfl

theorem expandEpisode_zero (ep : List String) : expandEpisode 0 ep = ep := by
  apply List.ext_getElem?
  intro i
  by_cases h : i < ep.length
  · rw [expandEpisode_getElem? 0 ep i h]
    have : pySlice ep (i - 0) (i + 0 + 1) = [ep[i]] := by
      simpa using pySlice_singleton ep i h
    rw [this, List.getElem?_eq_getElem h]
    rfl
  · rw [List.getElem?_eq_none (show (expandEpisode 0 ep).length ≤ i by
      rw [length_expandEpisode]; omega)]
    rw [List.getElem?_eq_none (show ep.length ≤ i by omega)]

theorem dictGet_dictSet_same (r : Record) (k v : String) :
    dictGet (dictSet r k v) k = some v := by
  induction r with
  | nil => simp [dictSet, dictGet]
  | cons p rest ih =>
    obtain ⟨a, b⟩ := p
    by_cases hak : a = k
    · rw [dictSet, if_pos hak, dictGet, if_pos rfl]
    · rw [dictSet, if_neg hak, dictGet, if_neg hak]
      exact ih

theorem dictGet_dictSet_other (r : Record) (k v q : String) (hq : q ≠ k) :
    dictGet (dictSet r k v) q = dictGet r q := by
  induction r with
  | nil =>
    show dictGet [(k, v)] q = none
    rw [dictGet, if_neg (Ne.symm hq), dictGet]
  | cons p rest ih =>
    obtain ⟨a, b⟩ := p
    by_cases hak : a = k
    · rw [dictSet, if_pos hak, dictGet, if_neg (Ne.symm hq)]
      rw [dictGet, if_neg (by rw [hak]; exact Ne.symm hq)]
    · rw [dictSet, if_neg hak]
      by_cases haq : a = q
      · rw [dictGet, if_pos haq, dictGet, if_pos haq]
      · rw [dictGet, if_neg haq, dictGet, if_neg haq]
        exact ih

theorem dictSet_filter (r : Record) (k v : String) :
    (dictSet r k v).filter (fun p => !(p.1 == k)) =
      r.filter (fun p => !(p.1 == k)) := by
  induction r with
  | nil => simp [dictSet]
  | cons p rest ih =>
    obtain ⟨a, b⟩ := p
    by_cases hak : a = k
    · rw [dictSet, if_pos hak]
      simp [hak]
    · rw [dictSet, if_neg hak]
      simp only [List.filter_cons]
      have : (a == k) = false := by simpa using hak
      simp [this, ih]

theorem zipWith_getElem?_some {α β γ : Type} (f : α → β → γ) :
    ∀ (l1 : List α) (l2 : List β) (i : Nat) (x : α) (y : β),
      l1[i]? = some x → l2[i]? = some y →
      (List.zipWith f l1 l2)[i]? = some (f x y) := by
  intro l1
  induction l1 with
  | nil => intro l2 i x y h1 _; simp at h1
  | cons a l1' ih =>
    intro l2 i x y h1 h2
    rcases l2 with _ | ⟨b, l2'⟩
    · simp at h2
    rcases i with _ | i'
    · simp at h1 h2
      subst h1; subst h2
      simp [List.zipWith]
    · simp only [List.getElem?_cons_succ] at h1 h2
      simpa using ih l2' i' x y h1 h2

theorem extractEpisode_error_shape :
    ∀ (l : List Record) (e : PyError),
      extractEpisode l = .error e → e = .KeyError "content" := by
  intro l
  induction l with
  | nil => intro e he; simp [extractEpisode] at he
  | cons d rest ih =>
    intro e he
    rw [extractEpisode] at he
    cases hd : dictGet d "content" with
    | none =>
      rw [hd] at he
      exact (Except.error.inj he).symm
    | some c =>
      rw [hd] at he
      cases hr : extractEpisode rest with
      | error e' =>
        rw [hr] at he
        exact (Except.error.inj he) ▸ ih e' hr
      | ok cs =>
        rw [hr] at he
        simp at he

theorem extractContents_error_shape :
    ∀ (eps : List (List Record)) (e : PyError),
      extractContents eps = .error e → e = .KeyError "content" := by
  intro eps
  induction eps with
  | nil => intro e he; simp [extractContents] at he
  | cons ep rest ih =>
    intro e he
    rw [extractContents] at he
    cases hep : extractEpisode ep with
    | error e' =>
      rw [hep] at he
      exact (Except.error.inj he) ▸ extractEpisode_error_shape ep e' hep
    | ok cs =>
      rw [hep] at he
      cases hr : extractContents rest with
      | error e' =>
        rw [hr] at he
        exact (Except.error.inj he) ▸ ih e' hr
      | ok css =>
        rw [hr] at he
        simp at he

theorem extractContentsOfData_error_shape (l : List Record) (n : Nat) (k : String)
    (e : PyError) (he : extractContentsOfData l n k = .error e) :
    e = .AssertionError assertMsg ∨ e = .KeyError "content" := by
  rw [extractContentsOfData] at he
  by_cases hn : (groupby_episode l k).length = n
  · rw [if_pos hn] at he
    exact Or.inr (extractContents_error_shape _ e he)
  · rw [if_neg hn] at he
    exact Or.inl (Except.error.inj he).symm

theorem pyFalsy_cons {α : Type} (x : α) (xs : List α) :
    pyFalsy (some (x :: xs)) = false := rfl

theorem pyFalsy_of_ne_nil {α : Type} (l : List α) (hl : l ≠ []) :
    pyFalsy (some l) = false := by
  cases l with
  | nil => exact absurd rfl hl
  | cons x xs => rfl

theorem create_of_data (l : List Record) (hl : l ≠ [])
    (cl : Option (List (List String))) (w n : Nat) (k : String) :
    create_expanded_content (some l) cl w n k =
      match extractContentsOfData l n k with
      | .error e => .error e
      | .ok c => .ok (c.map (expandEpisode w)) := by
  have hf : pyFalsy (some l) = false := pyFalsy_of_ne_nil l hl
  unfold create_expanded_content
  rw [hf]
  simp

def exRecA1 : Record := [("video_id", "a"), ("content", "A1")]

def exRecB1 : Record := [("video_id", "b"), ("content", "B1")]

def exRecA2 : Record := [("video_id", "a"), ("content", "A2")]

def exData : List Record := [exRecA1, exRecB1, exRecA2]

def exJoinRec : Record := [("a", "1"), ("expanded_content", "old")]

def altRecord (i : Nat) : Record :=
  [("video_id", if i % 2 == 0 then "a" else "b")]

def altGroups : Nat → List (List Record)
  | 0 => []
  | n + 1 => [altRecord n] :: altGroups n

theorem altGroups_length (n : Nat) : (altGroups n).length = n := by
  induction n with
  | zero => rfl
  | succ m ih => simp [altGroups, ih]

theorem altGroups_ne_nil (n : Nat) : ∀ g ∈ altGroups n, g ≠ [] := by
  induction n with
  | zero => intro g hg; simp [altGroups] at hg
  | succ m ih =>
    intro g hg
    rcases List.mem_cons.mp hg with rfl | hg'
    · simp
    · exact ih g hg'

theorem altGroups_const (n : Nat) :
    ∀ g ∈ altGroups n, ∀ a ∈ g, ∀ b ∈ g,
      dictGet a "video_id" = dictGet b "video_id" := by
  induction n with
  | zero => intro g hg; simp [altGroups] at hg
  | succ m ih =>
    intro g hg a ha b hb
    rcases List.mem_cons.mp hg with rfl | hg'
    · simp only [List.mem_singleton] at ha hb
      rw [ha, hb]
    · exact ih g hg' a ha b hb

theorem altRecord_get (i : Nat) :
    dictGet (altRecord i) "video_id" = some (if i % 2 == 0 then "a" else "b") := rfl

theorem altRecord_adjacent (m : Nat) :
    dictGet (altRecord (m + 1)) "video_id" ≠ dictGet (altRecord m) "video_id" := by
  rw [altRecord_get, altRecord_get]
  rcases Nat.mod_two_eq_zero_or_one m with hm | hm
  · have hs : (m + 1) % 2 = 1 := by omega
    simp [hm, hs]
  · have hs : (m + 1) % 2 = 0 := by omega
    simp [hm, hs]

theorem altGroups_chain (n : Nat) :
    List.Chain' (keysDiffer "video_id") (altGroups n) := by
  induction n with
  | zero => simp [altGroups]
  | succ m ih =>
    refine List.chain'_cons'.mpr ⟨?_, ih⟩
    intro hd hhd a ha b hb
    rcases m with _ | m'
    · simp [altGroups] at hhd
    · simp only [altGroups, List.head?_cons, Option.mem_def, Option.some.injEq] at hhd
      subst hhd
      simp only [List.mem_singleton] at ha hb
      rw [ha, hb]
      exact altRecord_adjacent m'

/-- C1: for every episode group and every non-negative window radius `w`,
the Window Expander yields one output string per record; the output at
position `i` is the single-space join of the `content` values at positions
`max(0, i - w)` (truncated subtraction) through `min(n - 1, i + w)`
inclusive, in ascending position order, and the window decomposes around
position `i` itself, so the own content of the record appears exactly once, at
its original relative position; for the group `["A","B","C","D"]` with
`window_size = 1` the outputs are `["A B","A B C","B C D","C D"]`. -/
theorem window_expansion_correct (ep : List String) (w : Nat) :
    (expandEpisode w ep).length = ep.length ∧
    (∀ i, (h : i < ep.length) →
      (expandEpisode w ep)[i]? =
        some (String.intercalate " "
          ((ep.take (min (ep.length - 1) (i + w) + 1)).drop (i - w))) ∧
      pySlice ep (i - w) (i + w + 1) =
        pySlice ep (i - w) i ++ ep[i] :: pySlice ep (i + 1) (i + w + 1)) ∧
    expandEpisode 1 ["A", "B", "C", "D"] = ["A B", "A B C", "B C D", "C D"] := by
  refine ⟨length_expandEpisode w ep, ?_, by decide⟩
  intro i h
  refine ⟨?_, pySlice_center ep w i h⟩
  rw [expandEpisode_getElem? w ep i h, pySlice_take_drop ep w i h]

theorem window_expansion_correct_witness :
    (expandEpisode 1 ["A", "B", "C", "D"])[2]? =
      some (String.intercalate " "
        ((["A", "B", "C", "D"].take (min (4 - 1) (2 + 1) + 1)).drop (2 - 1))) :=
  ((window_expansion_correct ["A", "B", "C", "D"] 1).2.1 2 (by decide)).1

/-- C2: with `window_size = 0` the Window Expander is the identity on
content: every episode maps to itself, element by element, and hence so
does any chunk list. -/
theorem window_zero_identity :
    (∀ ep : List String, expandEpisode 0 ep = ep) ∧
    (∀ chunk_list : List (List String), chunk_list.map (expandEpisode 0) = chunk_list) := by
  refine ⟨expandEpisode_zero, ?_⟩
  intro cl
  induction cl with
  | nil => rfl
  | cons e cs ih => rw [List.map_cons, expandEpisode_zero, ih]

/-- C3: the Grouper output partitions the input: the sum of group sizes
equals the input length, every group is non-empty, and concatenating the
groups in output order reconstructs the input sequence exactly (so no
record is dropped, reordered across groups, or duplicated, and groups
appear in first-occurrence order of each run). -/
theorem grouper_partitions (data : List Record) (key_field : String) :
    ((groupby_episode data key_field).map List.length).sum = data.length ∧
    (groupby_episode data key_field).flatten = data ∧
    ∀ g ∈ groupby_episode data key_field, g ≠ [] := by
  refine ⟨?_, groupRuns_flatten _ data, groupRuns_ne_nil _ data⟩
  rw [← List.length_flatten]
  rw [show (groupby_episode data key_field).flatten = data from groupRuns_flatten _ data]

theorem grouper_partitions_witness :
    ((groupby_episode exData "video_id").map List.length).sum = 3 ∧
    (groupby_episode exData "video_id").flatten = exData ∧
    [exRecA1] ≠ [] :=
  ⟨(grouper_partitions exData "video_id").1,
   (grouper_partitions exData "video_id").2.1,
   (grouper_partitions exData "video_id").2.2 [exRecA1] (by decide)⟩

/-- C4: the Grouper has run-length semantics: concatenating the groups
reproduces the input in order, every group is a non-empty run of records
whose key values all agree, adjacent groups carry different key values
(each run is maximal), and a key value whose records are not contiguous
yields multiple separate groups, as the concrete input with keys
`a, b, a` shows: it produces three groups, two of them for key `a`. -/
theorem grouper_run_semantics (data : List Record) (key_field : String) :
    (groupby_episode data key_field).flatten = data ∧
    (∀ g ∈ groupby_episode data key_field, g ≠ []) ∧
    (∀ g ∈ groupby_episode data key_field, ∀ a ∈ g, ∀ b ∈ g,
      dictGet a key_field = dictGet b key_field) ∧
    List.Chain' (keysDiffer key_field) (groupby_episode data key_field) ∧
    groupby_episode exData "video_id" = [[exRecA1], [exRecB1], [exRecA2]] := by
  exact ⟨groupRuns_flatten _ data, groupRuns_ne_nil _ data, groupRuns_const _ data,
    groupRuns_adjacent _ data, by decide⟩

theorem grouper_run_semantics_witness :
    [exRecA1] ≠ [] ∧ dictGet exRecA1 "video_id" = dictGet exRecA1 "video_id" :=
  ⟨(grouper_run_semantics exData "video_id").2.1 [exRecA1] (by decide),
   (grouper_run_semantics exData "video_id").2.2.1 [exRecA1] (by decide)
     exRecA1 (by decide) exRecA1 (by decide)⟩

/-- C5 counterexample: the claim says the `ValueError` is raised only when
both inputs are absent, and never when at least one input source is
supplied; but supplying `data` as an empty list (an input source present,
not absent) with `chunk_list` absent still raises, because the code tests
Python truthiness, not absence. -/
theorem invalid_argument_counterexample :
    (some ([] : List Record)).isSome = true ∧
    create_expanded_content (some []) none 1 193 "video_id" =
      .error (.ValueError invalidArgMsg) :=
  ⟨rfl, rfl⟩

/-- C5 (amended): the Window Expander raises the `ValueError` if and only
if both `data` and `chunk_list` are absent or empty (Python-falsy); when
at least one non-empty input source is supplied, no `ValueError` is
raised. -/
theorem invalid_argument_iff (data : Option (List Record))
    (chunk_list : Option (List (List String))) (w n : Nat) (k : String) :
    create_expanded_content data chunk_list w n k =
        .error (.ValueError invalidArgMsg) ↔
      (pyFalsy data = true ∧ pyFalsy chunk_list = true) := by
  constructor
  · intro h
    cases hd : pyFalsy data with
    | true =>
      cases hcl : pyFalsy chunk_list with
      | true => exact ⟨rfl, rfl⟩
      | false =>
        rw [create_expanded_content, hd, hcl] at h
        simp at h
    | false =>
      exfalso
      rw [create_expanded_content, hd] at h
      simp only [Bool.false_and, Bool.false_eq_true, if_false] at h
      cases hx : extractContentsOfData ((data.getD [])) n k with
      | error e =>
        rw [hx] at h
        rcases extractContentsOfData_error_shape _ n k e hx with he | he <;>
          · rw [he] at h
            simp at h
      | ok c =>
        rw [hx] at h
        simp at h
  · intro ⟨hd, hcl⟩
    rw [create_expanded_content, hd, hcl]
    rfl

/-- C6: the empty input sequence yields an empty sequence of groups, not
an error. -/
theorem grouper_empty (key_field : String) : groupby_episode [] key_field = [] := rfl

/-- C7: the azimuth-check cell never performs the intended length
comparison: because the cell binds `data_legnth` but the `assert` reads
`data_length`, an undefined name, the check raises `NameError` for every
input, including inputs whose lengths are equal, and so it neither
proceeds on equal lengths nor raises the documented length-mismatch
`AssertionError` on unequal ones. -/
theorem azimuth_check_always_name_error (flattened_content : List String)
    (data : List Record) :
    azimuth_check flattened_content data = .error (.NameError "data_length") := rfl

/-- C8: given records and aligned expanded content of equal length, the
Field Joiner preserves length and order; at each position the output
record is the input record with the `expanded_content` key set, its
`expanded_content` field is present and equal to the aligned string, every
other key reads back byte-for-byte unchanged, and stripping the
`expanded_content` key recovers the other fields exactly (so a
pre-existing `expanded_content` key has only its value overwritten). -/
theorem join_frame (data : List Record) (flattened_content : List String)
    (h : data.length = flattened_content.length) :
    (join_expanded_content data flattened_content).length = data.length ∧
    ∀ (i : Nat) (d : Record) (c : String),
      data[i]? = some d → flattened_content[i]? = some c →
      (join_expanded_content data flattened_content)[i]? =
        some (dictSet d "expanded_content" c) ∧
      dictGet (dictSet d "expanded_content" c) "expanded_content" = some c ∧
      (∀ q, q ≠ "expanded_content" →
        dictGet (dictSet d "expanded_content" c) q = dictGet d q) ∧
      (dictSet d "expanded_content" c).filter (fun p => !(p.1 == "expanded_content")) =
        d.filter (fun p => !(p.1 == "expanded_content")) := by
  constructor
  · rw [join_expanded_content, List.length_zipWith, h, Nat.min_self]
  · intro i d c hd hc
    exact ⟨zipWith_getElem?_some _ data flattened_content i d c hd hc,
      dictGet_dictSet_same d "expanded_content" c,
      fun q hq => dictGet_dictSet_other d "expanded_content" c q hq,
      dictSet_filter d "expanded_content" c⟩

theorem join_frame_witness :
    (join_expanded_content [exJoinRec] ["X"]).length = 1 ∧
    (join_expanded_content [exJoinRec] ["X"])[0]? =
      some (dictSet exJoinRec "expanded_content" "X") ∧
    dictGet (dictSet exJoinRec "expanded_content" "X") "expanded_content" = some "X" ∧
    dictGet (dictSet exJoinRec "expanded_content" "X") "a" = dictGet exJoinRec "a" :=
  ⟨(join_frame [exJoinRec] ["X"] rfl).1,
   ((join_frame [exJoinRec] ["X"] rfl).2 0 exJoinRec "X" rfl rfl).1,
   ((join_frame [exJoinRec] ["X"] rfl).2 0 exJoinRec "X" rfl rfl).2.1,
   ((join_frame [exJoinRec] ["X"] rfl).2 0 exJoinRec "X" rfl rfl).2.2.1 "a" (by decide)⟩

/-- C9: when non-empty raw records are supplied and the Grouper group
count differs from `num_episodes`, `create_expanded_content` fails with
the `AssertionError` of the episode-count check; and for an input made of
193 contiguous runs, each non-empty, the Grouper returns exactly those 193
groups in first-occurrence order and the check passes (no `AssertionError`
is possible). -/
theorem assert_episode_count (l : List Record) (cl : Option (List (List String)))
    (w n : Nat) (k : String) (gs : List (List Record)) :
    (l ≠ [] → (groupby_episode l k).length ≠ n →
      create_expanded_content (some l) cl w n k =
        .error (.AssertionError assertMsg)) ∧
    ((∀ g ∈ gs, g ≠ []) →
      (∀ g ∈ gs, ∀ a ∈ g, ∀ b ∈ g, dictGet a k = dictGet b k) →
      List.Chain' (keysDiffer k) gs →
      gs.length = 193 →
      groupby_episode gs.flatten k = gs ∧
      ∀ e, create_expanded_content (some gs.flatten) cl w 193 k ≠
        .error (.AssertionError e)) := by
  constructor
  · intro hl hn
    rw [create_of_data l hl cl w n k]
    rw [extractContentsOfData, if_neg hn]
  · intro hne hconst hchain hlen
    have hgr : groupby_episode gs.flatten k = gs :=
      groupRuns_flatten_eq _ gs hne hconst hchain
    refine ⟨hgr, ?_⟩
    intro e
    have hfl : gs.flatten ≠ [] := by
      rcases gs with _ | ⟨g, gs'⟩
      · simp at hlen
      · have hg : g ≠ [] := hne g (List.mem_cons_self _ _)
        rcases g with _ | ⟨r, rs⟩
        · exact absurd rfl hg
        · simp
    rw [create_of_data gs.flatten hfl cl w 193 k]
    rw [extractContentsOfData, hgr, hlen, if_pos rfl]
    cases hx : extractContents gs with
    | error e' =>
      have hke := extractContents_error_shape gs e' hx
      simp [hke]
    | ok c => simp

theorem assert_episode_count_witness :
    create_expanded_content (some [exRecA1]) none 1 193 "video_id" =
      .error (.AssertionError assertMsg) ∧
    groupby_episode (altGroups 193).flatten "video_id" = altGroups 193 :=
  ⟨(assert_episode_count [exRecA1] none 1 193 "video_id" (altGroups 193)).1
     (by decide) (by decide),
   ((assert_episode_count [exRecA1] none 1 193 "video_id" (altGroups 193)).2
     (altGroups_ne_nil 193) (altGroups_const 193) (altGroups_chain 193)
     (altGroups_length 193)).1⟩

/-- C10 counterexample: the claim says a supplied `chunk_list` is always
ignored when `data` is also supplied; but when the supplied `data` is an
empty list, the code's truthiness test skips the data branch and uses the
`chunk_list`, while the same call with `data` only raises, so the result
is not determined by `data` alone. -/
theorem ignore_chunk_list_counterexample :
    create_expanded_content (some []) (some [["x", "y"]]) 1 193 "video_id" =
      .ok [["x y", "x y"]] ∧
    create_expanded_content (some []) none 1 193 "video_id" =
      .error (.ValueError invalidArgMsg) :=
  ⟨rfl, rfl⟩

/-- C10 (amended): when the supplied `data` is non-empty, a supplied
`chunk_list` is ignored: the chunk list is recomputed from `data` and the
result equals calling the expander with `data` only; when the supplied
`data` is empty, the `chunk_list` is used instead. -/
theorem ignore_chunk_list_of_data (l : List Record) (hl : l ≠ [])
    (cl : List (List String)) (w n : Nat) (k : String) :
    create_expanded_content (some l) (some cl) w n k =
      create_expanded_content (some l) none w n k := by
  have hf : pyFalsy (some l) = false := pyFalsy_of_ne_nil l hl
  unfold create_expanded_content
  rw [hf]
  simp

theorem ignore_chunk_list_witness :
    create_expanded_content (some [exRecA1]) (some [["x"]]) 1 193 "video_id" =
      create_expanded_content (some [exRecA1]) none 1 193 "video_id" :=
  ignore_chunk_list_of_data [exRecA1] (by decide) [["x"]] 1 193 "video_id"
